import Mathlib

/-!
Shallow embedding of the domaingenie candidate generation, scoring and
ranking pipeline (src/src/generator.ts, src/src/strategies/*.ts,
src/src/scoring.ts, src/src/ranking.ts, src/src/synonyms.ts,
src/src/utils.ts) into Lean.

Conventions of the embedding:
* JavaScript strings are Lean `String`s; `toLowerCase()` is modelled by
  `jsToLower`, which lowers exactly the ASCII letters (the only case that
  arises in this pipeline).
* JavaScript numbers are modelled by the exact rational type `JsNum`
  (all scoring arithmetic in the source is exact on rationals: sums,
  products and one division).
* `undefined`-able values are `Option`s.  String interpolation of a
  possibly-undefined value (template literals) is `jsStr`, which renders
  `none` as the literal text "undefined", exactly as JavaScript does.
* External data and libraries (the `synonyms` package, the word list and
  the stop-word file, none of which are part of src/) are parameters,
  bundled in `ExtDeps`.
* `Math.random()` driving the Fisher-Yates shuffle in the permutation
  strategy is modelled by an explicit draw oracle `draws : ℕ → ℕ`; the
  value used at index `i` is `draws i % (i+1)`, which ranges over exactly
  the values `Math.floor(Math.random()*(i+1))` can take.
* A thrown TypeError is an `Except.error`.
-/

/-- An exact rational, always kept in reduced form with a positive
denominator: the model of the JavaScript numbers of this pipeline (whose
arithmetic — sums, products, one division with small operands — is exact).
Defined here, rather than using Mathlib's `ℚ`, so that every pipeline
value is evaluable by `decide` (the kernel cannot reduce `Rat`'s extern
arithmetic). -/
structure JsNum where
  num : Int
  den : Nat
deriving DecidableEq, Repr, Inhabited

/-- Build a reduced rational from a numerator and positive denominator. -/
def JsNum.mk' (n : Int) (d : Nat) : JsNum :=
  if d = 0 then { num := 0, den := 1 }
  else
    let g := Nat.gcd n.natAbs d
    if g = 0 then { num := 0, den := 1 }
    else { num := n / (g : Int), den := d / g }

/-- Build a reduced rational from an integer fraction (denominator sign
absorbed into the numerator). -/
def JsNum.mkSigned (n d : Int) : JsNum :=
  if d < 0 then JsNum.mk' (-n) (-d).toNat else JsNum.mk' n d.toNat

instance : OfNat JsNum n := ⟨{ num := (n : Int), den := 1 }⟩

instance : Add JsNum := ⟨fun a b => JsNum.mk' (a.num * b.den + b.num * a.den) (a.den * b.den)⟩

instance : Mul JsNum := ⟨fun a b => JsNum.mk' (a.num * b.num) (a.den * b.den)⟩

instance : Neg JsNum := ⟨fun a => { num := -a.num, den := a.den }⟩

instance : Div JsNum := ⟨fun a b => JsNum.mkSigned (a.num * b.den) (a.den * b.num)⟩

/-- Comparison by cross-multiplication (denominators are positive). -/
def JsNum.leB (a b : JsNum) : Bool := decide (a.num * b.den ≤ b.num * a.den)

/-- Strict comparison by cross-multiplication. -/
def JsNum.ltB (a b : JsNum) : Bool := decide (a.num * b.den < b.num * a.den)

instance : LE JsNum := ⟨fun a b => JsNum.leB a b = true⟩

instance : LT JsNum := ⟨fun a b => JsNum.ltB a b = true⟩

instance (a b : JsNum) : Decidable (a ≤ b) :=
  inferInstanceAs (Decidable (JsNum.leB a b = true))

instance (a b : JsNum) : Decidable (a < b) :=
  inferInstanceAs (Decidable (JsNum.ltB a b = true))

/-- Embed a count into the numeric domain. -/
def jsOfNat (n : ℕ) : JsNum := { num := (n : Int), den := 1 }

/-- ASCII lowering of a single character, as JavaScript's `toLowerCase`
acts on the basic latin letters. -/
def jsLowerChar (c : Char) : Char :=
  if 65 ≤ c.toNat ∧ c.toNat ≤ 90 then Char.ofNat (c.toNat + 32) else c

/-- Model of `String.prototype.toLowerCase` (ASCII range). -/
def jsToLower (s : String) : String :=
  String.mk (s.data.map jsLowerChar)

/-- JavaScript template-literal rendering of a possibly-undefined string:
`undefined` interpolates as the text "undefined". -/
def jsStr : Option String → String
  | some s => s
  | none => "undefined"

/-- First-occurrence deduplication, i.e. `Array.from(new Set(l))`. -/
def dedupFirstAux [BEq α] : List α → List α → List α
  | _, [] => []
  | seen, x :: xs =>
    if seen.contains x then dedupFirstAux seen xs
    else x :: dedupFirstAux (x :: seen) xs

/-- `Array.from(new Set(l))`: keep the first occurrence of each element. -/
def dedupFirst [BEq α] (l : List α) : List α := dedupFirstAux [] l

/-- Stable insertion used by `sortStable`: `le x y` means `x` may stay in
front of `y` (so `le` must hold between equal-keyed elements to preserve
their original order, matching JavaScript's stable `Array.prototype.sort`). -/
def insertStable (le : α → α → Bool) (x : α) : List α → List α
  | [] => [x]
  | y :: ys => if le x y then x :: y :: ys else y :: insertStable le x ys

/-- Stable sort modelling JavaScript's `Array.prototype.sort` with a
comparator inducing the total preorder `le`. -/
def sortStable (le : α → α → Bool) : List α → List α
  | [] => []
  | x :: xs => insertStable le x (sortStable le xs)

/-- Code-unit lexicographic strict order on character lists. -/
def lexLtChars : List Char → List Char → Bool
  | [], [] => false
  | [], _ :: _ => true
  | _ :: _, [] => false
  | a :: as, b :: bs =>
    if a.toNat < b.toNat then true
    else if b.toNat < a.toNat then false
    else lexLtChars as bs

/-- String strict order (code-unit lexicographic, as the default
JavaScript sort comparator on our ASCII strings). -/
def strLtB (a b : String) : Bool := lexLtChars a.data b.data

/-- `a` may stay before `b` in an ascending string sort. -/
def strLeB (a b : String) : Bool := !(strLtB b a)

/-- Comparator of `expandSynonyms`: by length, then lexicographic;
`lenLexLe a b` means `a` may stay in front of `b`. -/
def lenLexLe (a b : String) : Bool :=
  decide (a.length < b.length) || (decide (a.length = b.length) && !(strLtB b a))

/-- `utils.combine` helper: all picks of one element per list, joined.
An empty prefix takes the token without the joiner, as in the source. -/
def combineAux (joiner : String) : List (List String) → String → List String
  | [], pre => [pre]
  | l :: rest, pre =>
    l.flatMap (fun tok =>
      combineAux joiner rest (if pre = "" then tok else pre ++ joiner ++ tok))

/-- `utils.combine(lists, joiner)`. -/
def combine (lists : List (List String)) (joiner : String) : List String :=
  if lists.isEmpty then [] else combineAux joiner lists ""

/-- Swap two positions of a list (in-bounds), else identity. -/
def listSwap (l : List α) (i j : ℕ) : List α :=
  match l.get? i, l.get? j with
  | some a, some b => (l.set i b).set j a
  | _, _ => l

/-- The descending index loop of the Fisher-Yates shuffle in
`PermutationStrategy.generate`; `draws` is the random oracle. -/
def fyGo (draws : ℕ → ℕ) : ℕ → List α → List α
  | 0, l => l
  | i + 1, l => fyGo draws i (listSwap l (i + 1) (draws (i + 1) % (i + 2)))

/-- Fisher-Yates shuffle with explicit random draws. -/
def fisherYates (draws : ℕ → ℕ) (l : List α) : List α :=
  fyGo draws (l.length - 1) l

/-- The pair-index list built by `PermutationStrategy.generate`:
all `(i, j)` with `i < j < n`, in nested-loop order. -/
def mkPairs (n : ℕ) : List (ℕ × ℕ) :=
  (List.range n).flatMap (fun i =>
    ((List.range n).filter (fun j => decide (i < j))).map (fun j => (i, j)))

/-- A character matched by the tokenizer's `[a-z0-9]` class. -/
def isTokenChar (c : Char) : Bool :=
  (decide (97 ≤ c.toNat) && decide (c.toNat ≤ 122)) ||
    (decide (48 ≤ c.toNat) && decide (c.toNat ≤ 57))

/-- Maximal runs of characters satisfying `p` (the global regex match of
`utils.normalizeTokens`); `acc` holds the current run reversed. -/
def runsAux (p : Char → Bool) : List Char → List Char → List String
  | [], acc => if acc.isEmpty then [] else [String.mk acc.reverse]
  | c :: cs, acc =>
    if p c then runsAux p cs (c :: acc)
    else if acc.isEmpty then runsAux p cs []
    else String.mk acc.reverse :: runsAux p cs []

/-- `utils.normalizeTokens`: lowercase, split into `[a-z0-9]+` runs, drop
stop-words.  The stop-word set (stopwords.json, external data not under
src/) is the parameter `stop`. -/
def normalizeTokens (stop : List String) (input : String) : List String :=
  (runsAux isTokenChar (jsToLower input).data []).filter
    (fun t => !((stop.map jsToLower).contains t))

/-- `a` ends with `b` (String.prototype.endsWith). -/
def strEndsWith (a b : String) : Bool := b.data.isSuffixOf a.data

/-- `s.slice(0, i)` for a non-negative index. -/
def strTake (s : String) (i : ℕ) : String := String.mk (s.data.take i)

/-- `s.slice(i)` for a non-negative index. -/
def strDrop (s : String) (i : ℕ) : String := String.mk (s.data.drop i)

/-- `s.slice(0, -n)`: drop the last `n` characters; for `n = 0` JavaScript
evaluates `slice(0, -0) = slice(0, 0) = ""`. -/
def sliceDropLast (s : String) (n : ℕ) : String :=
  if n = 0 then "" else String.mk (s.data.take (s.data.length - n))

/-- Association-list lookup (plain-object property access). -/
def alookup (l : List (String × JsNum)) (k : String) : Option JsNum :=
  (l.find? (fun p => p.1 = k)).map (fun p => p.2)

/-- The external collaborators of the core (§6 of the spec), kept abstract:
`syn` is the `synonyms` library (it may throw, return nothing, or return a
record of category word-arrays, modelled as the list of those arrays);
`stop` is the stop-word list (stopwords.json is data not under src/);
`dict` is the English word-list membership predicate (word-list-json),
already restricted to lowercase entries as the source's preload does. -/
structure ExtDeps where
  syn : String → Except Unit (Option (List (List String)))
  stop : List String
  dict : String → Bool

/-- A candidate as produced by a generation strategy / the merger:
`Partial<DomainCandidate & {strategy}>` — every field may be absent. -/
structure RawCandidate where
  domain : Option String
  suffix : Option String
  strategy : Option String
deriving Repr, DecidableEq, Inhabited

/-- `DomainScore`: total plus the named non-zero components, in insertion
order. -/
structure DomainScore where
  total : JsNum
  components : List (String × JsNum)
deriving Repr, DecidableEq, Inhabited

/-- A scored `DomainCandidate` as consumed by the ranking engine. -/
structure DomainCandidate where
  domain : String
  suffix : String
  strategy : Option String
  score : DomainScore
deriving Repr, DecidableEq, Inhabited

/-- The object `executeSearch` hands to every strategy: the
`ProcessedQuery` fields built by `processRequest`, together with the
`DomainSearchOptions` fields that the affix / alphabetical / tld-hack
strategies read off the same object (structural typing: absent fields are
`none` / `[]`). -/
structure ProcessedQuery where
  query : String
  tokens : List String
  synonyms : List (String × List String)
  orderedTlds : List String
  includeHyphenated : Bool
  limit : ℕ
  prefixes : List String
  suffixes : List String
  keywords : List String
  maxSynonyms : Option ℕ
  defaultTld : Option String
  preferredTlds : List String
  supportedTlds : List String
deriving Inhabited

/-- `query.synonyms[token] ?? []`. -/
def lookupSyn (syns : List (String × List String)) (t : String) : List String :=
  ((syns.find? (fun p => p.1 = t)).map (fun p => p.2)).getD []

/-- The word-collection loop of `expandSynonyms` over the category arrays
returned by the synonyms library: lowercase each word, skip empty words,
the token itself and words longer than 15 characters, first occurrence
wins (Set insertion order). -/
def collectSyn (base : String) (cats : List (List String)) : List String :=
  dedupFirst ((cats.flatMap id).filterMap (fun word =>
    let normalized := jsToLower word
    if normalized = "" ∨ normalized = base ∨ 15 < normalized.length then none
    else some normalized))

/-- `synonyms.expandSynonyms(token, max, extra)` (src/src/synonyms.ts).
The per-token cache is semantically transparent for a fixed dictionary
state and is therefore not modelled. -/
def expandSynonyms (ext : ExtDeps) (token : String) (max : ℕ)
    (extra : List String) : List String :=
  let base := jsToLower token
  let cached :=
    match ext.syn base with
    | Except.error _ => []
    | Except.ok none => []
    | Except.ok (some cats) => sortStable lenLexLe (collectSyn base cats)
  let extras := (extra.map jsToLower).filter
    (fun e => !(e = "") && !(e = base) && decide (e.length ≤ 15))
  let combined := cached ++ extras
  let uniq := (dedupFirst combined).filter (fun a => decide (1 < a.length))
  let sorted := sortStable lenLexLe uniq
  sorted.take (min max 10)

/-- The TLD list the affix / alphabetical / tld-hack strategies build:
`Array.from(new Set([opts.defaultTld, ...preferredTlds, ...supportedTlds]))`.
`opts.defaultTld` may be `undefined`, and a JavaScript `Set` keeps
`undefined` as an element, hence `Option String`. -/
def strategyTlds (opts : ProcessedQuery) : List (Option String) :=
  dedupFirst (opts.defaultTld ::
    (opts.preferredTlds.map some ++ opts.supportedTlds.map some))

/-- The token/synonym base lists shared by the affix and tld-hack
strategies (tokens from `normalizeTokens(opts.query)`, keywords appended
as one extra list when present). -/
def baseSynLists (ext : ExtDeps) (opts : ProcessedQuery) : List (List String) :=
  let tokens := normalizeTokens ext.stop opts.query
  let keywords := opts.keywords.map jsToLower
  let maxSyn := opts.maxSynonyms.getD 5
  let synLists := tokens.map (fun t => expandSynonyms ext t maxSyn [])
  if keywords.isEmpty then synLists else synLists ++ [keywords]

/-- `AffixStrategy.generate` (src/src/strategies/affix.ts). -/
def affixGenerate (ext : ExtDeps) (opts : ProcessedQuery) : List RawCandidate :=
  let tlds := strategyTlds opts
  if (opts.prefixes.isEmpty && opts.suffixes.isEmpty) || tlds.isEmpty then []
  else
    let bases := combine (baseSynLists ext opts) ""
    bases.flatMap (fun base =>
      (if opts.prefixes.isEmpty then [] else
        opts.prefixes.flatMap (fun pre =>
          tlds.map (fun tld =>
            { domain := some (pre ++ base ++ "." ++ jsStr tld),
              suffix := tld, strategy := none })))
      ++
      (if opts.suffixes.isEmpty then [] else
        opts.suffixes.flatMap (fun suf =>
          tlds.map (fun tld =>
            { domain := some (base ++ suf ++ "." ++ jsStr tld),
              suffix := tld, strategy := none }))))

/-- `AlphabeticalStrategy.generate` (src/src/strategies/tldHack.ts,
second class).  Note it does not append keywords. -/
def alphabeticalGenerate (ext : ExtDeps) (opts : ProcessedQuery) : List RawCandidate :=
  let tokens := normalizeTokens ext.stop opts.query
  if tokens.length < 2 then []
  else
    let maxSyn := opts.maxSynonyms.getD 5
    let alphaTokens := sortStable strLeB tokens
    let alphaLists := alphaTokens.map (fun t => expandSynonyms ext t maxSyn [])
    let labels := dedupFirst (combine alphaLists "")
    let tlds := strategyTlds opts
    if tlds.isEmpty then []
    else labels.flatMap (fun label =>
      tlds.map (fun tld =>
        { domain := some (label ++ "." ++ jsStr tld),
          suffix := tld, strategy := none }))

/-- The TypeError thrown by `tlds.map(t => t.toLowerCase())` when the TLD
set contains `undefined` (absent `opts.defaultTld`). -/
def tldHackError : String :=
  "TypeError: Cannot read properties of undefined (reading toLowerCase)"

/-- The final dedup-and-drop-falsy filter of `TldHackStrategy.generate`. -/
def dedupByDomain : List RawCandidate → List String → List RawCandidate
  | [], _ => []
  | r :: rest, seen =>
    match r.domain with
    | none => dedupByDomain rest seen
    | some d =>
      if d = "" ∨ seen.contains d then dedupByDomain rest seen
      else r :: dedupByDomain rest (d :: seen)

/-- `TldHackStrategy.generate` (src/src/strategies/tldHack.ts).  The
`.map(t => t.toLowerCase())` over the TLD set throws as soon as it meets
`undefined`, modelled as `Except.error`. -/
def tldHackGenerate (ext : ExtDeps) (opts : ProcessedQuery) :
    Except String (List RawCandidate) :=
  let tldsOpt := strategyTlds opts
  if tldsOpt.any (fun t => t.isNone) then Except.error tldHackError
  else
    let tlds := (tldsOpt.filterMap id).map jsToLower
    if tlds.isEmpty then Except.ok []
    else
      let bases := combine (baseSynLists ext opts) ""
      let results := bases.flatMap (fun label =>
        if label.data.contains '.' then []
        else tlds.filterMap (fun tld =>
          if strEndsWith (jsToLower label) tld then
            some { domain := some (sliceDropLast label tld.length ++ "." ++ tld),
                   suffix := some tld, strategy := none }
          else none))
      Except.ok (dedupByDomain results [])

/-- The inner TLD loop of `PermutationStrategy.generate`: add
`label.tld` for every TLD unless the domain is already present; returns
the flag of the early `return` taken when the map size reaches the limit
right after an insertion. -/
def permAddTlds (limit : ℕ) (label : String) :
    List String → List RawCandidate → (List RawCandidate × Bool)
  | [], out => (out, false)
  | tld :: rest, out =>
    let domain := label ++ "." ++ tld
    if out.any (fun c => c.domain = some domain) then
      permAddTlds limit label rest out
    else
      let out1 := out ++ [{ domain := some domain, suffix := some tld, strategy := none }]
      if limit ≤ out1.length then (out1, true)
      else permAddTlds limit label rest out1

/-- The single-token branch of `PermutationStrategy.generate`. -/
def permSingleLoop (limit : ℕ) (tlds : List String) :
    List String → List RawCandidate → List RawCandidate
  | [], out => out
  | label :: rest, out =>
    let r := permAddTlds limit label tlds out
    if r.2 then r.1 else permSingleLoop limit tlds rest r.1

/-- `addLabel` of the multi-token branch: skip empty / already-seen
labels, else pair the label with every TLD; the returned flag is
`map.size >= limit` (with the early exit of `permAddTlds`). -/
def permAddLabel (limit : ℕ) (tlds : List String) (labelSet : List String)
    (out : List RawCandidate) (label : String) :
    List String × List RawCandidate × Bool :=
  if label = "" ∨ labelSet.contains label then (labelSet, out, false)
  else
    let labelSet1 := label :: labelSet
    let r := permAddTlds limit label tlds out
    if r.2 then (labelSet1, r.1, true)
    else (labelSet1, r.1, limit ≤ r.1.length)

/-- Run `addLabel` over a list of labels, stopping at the first `true`. -/
def permAddMany (limit : ℕ) (tlds : List String) :
    List String → List String → List RawCandidate →
    (List String × List RawCandidate × Bool)
  | [], ls, out => (ls, out, false)
  | label :: rest, ls, out =>
    let r := permAddLabel limit tlds ls out label
    if r.2.2 then (r.1, r.2.1, true)
    else permAddMany limit tlds rest r.1 r.2.1

/-- Phase 1 of the multi-token branch: every token and synonym as a
standalone label. -/
def permPhase1 (limit : ℕ) (tlds : List String) :
    List (List String) → List String → List RawCandidate →
    (List String × List RawCandidate × Bool)
  | [], ls, out => (ls, out, false)
  | list :: rest, ls, out =>
    let r := permAddMany limit tlds list ls out
    if r.2.2 then (r.1, r.2.1, true)
    else permPhase1 limit tlds rest r.1 r.2.1

/-- The label list of `generateForPair`: plain concatenations, then the
hyphenated ones when `includeHyphenated` is set. -/
def permPairLabels (hyph : Bool) (la lb : List String) : List String :=
  combine [la, lb] "" ++ (if hyph then combine [la, lb] "-" else [])

/-- Phase 2 of the multi-token branch: walk the shuffled pair list, each
pair in forward then reverse order, breaking once the limit is hit. -/
def permPairsLoop (limit : ℕ) (tlds : List String) (hyph : Bool)
    (synLists : List (List String)) :
    List (ℕ × ℕ) → List String → List RawCandidate → List RawCandidate
  | [], _, out => out
  | (i, j) :: rest, ls, out =>
    let la := synLists.getD i []
    let lb := synLists.getD j []
    let r1 := permAddMany limit tlds (permPairLabels hyph la lb) ls out
    if r1.2.2 then r1.2.1
    else
      let r2 := permAddMany limit tlds (permPairLabels hyph lb la) r1.1 r1.2.1
      if r2.2.2 then r2.2.1
      else permPairsLoop limit tlds hyph synLists rest r2.1 r2.2.1

/-- `PermutationStrategy.generate` (src/src/strategies/permutation.ts),
with the random draws of the Fisher-Yates shuffle made explicit. -/
def permutationGenerate (opts : ProcessedQuery) (draws : ℕ → ℕ) : List RawCandidate :=
  let tlds := opts.orderedTlds
  if opts.tokens.isEmpty || tlds.isEmpty then []
  else if opts.tokens.length = 1 then
    let t0 := opts.tokens.headD ""
    permSingleLoop opts.limit tlds (t0 :: lookupSyn opts.synonyms t0) []
  else
    let synLists := opts.tokens.map (fun t => t :: lookupSyn opts.synonyms t)
    let r := permPhase1 opts.limit tlds synLists [] []
    if r.2.2 then r.2.1
    else
      let pairs := fisherYates draws (mkPairs synLists.length)
      permPairsLoop opts.limit tlds opts.includeHyphenated synLists pairs r.1 r.2.1

/-- Tag every candidate of a strategy's output with the strategy name, as
the merger does. -/
def tagStrategy (name : String) (l : List RawCandidate) : List RawCandidate :=
  l.map (fun c => { c with strategy := some name })

/-- `generateCandidates` (src/src/generator.ts): run the four strategies
on the same options object and concatenate their tagged outputs in
strategy listing order (permutation, alphabetical, affix, tldHack).
`Promise.all` rejects when the tld-hack strategy throws. -/
def generateCandidates (ext : ExtDeps) (opts : ProcessedQuery) (draws : ℕ → ℕ) :
    Except String (List RawCandidate) :=
  match tldHackGenerate ext opts with
  | Except.error e => Except.error e
  | Except.ok hack =>
    Except.ok (tagStrategy "permutation" (permutationGenerate opts draws)
      ++ tagStrategy "alphabetical" (alphabeticalGenerate ext opts)
      ++ tagStrategy "affix" (affixGenerate ext opts)
      ++ tagStrategy "tldHack" hack)

/-- The builtin TLD weight table of src/src/scoring.ts. -/
def defaultTldWeights : List (String × JsNum) := [("com", 20), ("net", 10), ("org", 10)]

/-- `ScoringConfig` with its documented defaults (src/src/scoring.ts). -/
structure ScoringConfig where
  tldWeights : List (String × JsNum) := defaultTldWeights
  hyphenPenalty : JsNum := 5
  numberPenalty : JsNum := 5
  baseScore : JsNum := 100
  lengthPenaltyPerChar : JsNum := 1
  lengthSeverity : JsNum := 2
  vowelRatioWeight : JsNum := 10
  lowVowelRatioThreshold : JsNum := (3 : JsNum) / 10
  lowVowelPenalty : JsNum := 5
  consonantClusterPenalty : JsNum := 5
  repeatedLettersPenalty : JsNum := 5
  locationTldBonus : JsNum := 20
  dictionaryWord : JsNum := 15
  dictionarySubstr : JsNum := 5

/-- `new ScoringConfig()`. -/
def defaultScoringConfig : ScoringConfig := {}

/-- A lowercase ASCII letter. -/
def isLowerAlph (c : Char) : Bool :=
  decide (97 ≤ c.toNat) && decide (c.toNat ≤ 122)

/-- An ASCII letter of either case (the `/[a-z]/i` class). -/
def isAsciiLetter (c : Char) : Bool :=
  isLowerAlph c || (decide (65 ≤ c.toNat) && decide (c.toNat ≤ 90))

/-- A vowel of either case (the `/[aeiou]/gi` class). -/
def isVowelCI (c : Char) : Bool :=
  ['a', 'e', 'i', 'o', 'u'].contains (jsLowerChar c)

/-- `utils.vowelRatio`: vowels over letters, 0 when there is no letter. -/
def vowelRatio (s : String) : JsNum :=
  let letters := s.data.filter isAsciiLetter
  if letters.length = 0 then 0
  else jsOfNat (letters.filter isVowelCI).length / jsOfNat letters.length

/-- Number of hyphens in a label (the global hyphen match). -/
def hyphenCount (s : String) : ℕ := (s.data.filter (fun c => c = '-')).length

/-- Number of digits in a label (`label.match(/[0-9]/g)`). -/
def digitCount (s : String) : ℕ :=
  (s.data.filter (fun c => decide (48 ≤ c.toNat) && decide (c.toNat ≤ 57))).length

/-- A consonant of either case (the `/[bcdfghjklmnpqrstvwxyz]/i` class). -/
def isConsonantCI (c : Char) : Bool := isAsciiLetter c && !(isVowelCI c)

/-- Longest run of characters satisfying `p` (for the `{4,}` quantifier). -/
def maxRunAux (p : Char → Bool) : List Char → ℕ → ℕ → ℕ
  | [], cur, best => max cur best
  | c :: cs, cur, best =>
    if p c then maxRunAux p cs (cur + 1) (max best (cur + 1))
    else maxRunAux p cs 0 best

/-- `/([bcdfghjklmnpqrstvwxyz]{4,})/i.test(label)`. -/
def hasConsonantRun (s : String) : Bool :=
  decide (4 ≤ maxRunAux isConsonantCI s.data 0 0)

/-- `/([a-z])\1{2,}/i.test(label)`: three consecutive characters, the
first a letter, all equal up to case (`/i` makes the backreference
case-insensitive). -/
def hasTripleRepeat : List Char → Bool
  | a :: b :: c :: rest =>
    (isAsciiLetter a && (jsLowerChar a = jsLowerChar b : Bool)
      && (jsLowerChar a = jsLowerChar c : Bool))
    || hasTripleRepeat (b :: c :: rest)
  | _ => false

/-- `isDictionaryWord` of src/src/scoring.ts: empty strings and strings
with a character outside `[a-z]` (after lowering) are never words; others
are looked up in the external word set. -/
def isDictionaryWord (dict : String → Bool) (word : String) : Bool :=
  let w := jsToLower word
  if w = "" ∨ w.data.any (fun c => !(isLowerAlph c)) then false else dict w

/-- `String.prototype.split` with a one-character separator, on char
lists (`acc` holds the current piece reversed). -/
def splitOnChar (sep : Char) : List Char → List Char → List String
  | [], acc => [String.mk acc.reverse]
  | c :: cs, acc =>
    if c = sep then String.mk acc.reverse :: splitOnChar sep cs []
    else splitOnChar sep cs (c :: acc)

/-- `isComposedOfDictionaryWords` of src/src/scoring.ts: hyphenated labels
require every part to be a word; plain all-letter labels probe two-way
splits in the first-6 and last-6 character windows. -/
def isComposedOfDictionaryWords (dict : String → Bool) (label : String) : Bool :=
  let s := jsToLower label
  let parts := (splitOnChar '-' s.data []).filter (fun p => !(p = ""))
  if 1 < parts.length ∧ parts.all (isDictionaryWord dict) then true
  else if !(s.data.contains '-') && !s.data.isEmpty && s.data.all isLowerAlph then
    let n := s.length
    let earlyIdxs := (List.range (min 6 (n - 2) + 1)).filter (fun i => decide (2 ≤ i))
    let lateIdxs := (List.range (n - 1)).filter (fun i => decide (max 2 (n - 6) ≤ i))
    (earlyIdxs.any (fun i =>
      isDictionaryWord dict (strTake s i) && isDictionaryWord dict (strDrop s i)))
    || (lateIdxs.any (fun i =>
      isDictionaryWord dict (strTake s i) && isDictionaryWord dict (strDrop s i)))
  else false

/-- The ordered component list of `scoreDomain`; the source's `add`
pushes every value into the total and records only non-zero values in the
component map, which `scoreDomain` reproduces by summing the whole list
and filtering the zeros. -/
def scoreEntries (dict : String → Bool) (label tld : String)
    (location : Option String) (cfg : ScoringConfig) : List (String × JsNum) :=
  let len : JsNum := jsOfNat label.length + (if tld = "" then 0 else jsOfNat tld.length)
  let ratio := vowelRatio label
  let suffix := jsToLower tld
  [("base", cfg.baseScore),
   ("lengthPenalty", -(cfg.lengthSeverity * len * cfg.lengthPenaltyPerChar)),
   ("hyphenPenalty", -(jsOfNat (hyphenCount label)) * cfg.hyphenPenalty),
   ("numberPenalty", -(jsOfNat (digitCount label)) * cfg.numberPenalty),
   ("vowelRatio", ratio * cfg.vowelRatioWeight),
   ("lowVowelPenalty", if ratio < cfg.lowVowelRatioThreshold then -cfg.lowVowelPenalty else 0),
   ("consonantClusterPenalty", if hasConsonantRun label then -cfg.consonantClusterPenalty else 0),
   ("repeatedLettersPenalty", if hasTripleRepeat label.data then -cfg.repeatedLettersPenalty else 0),
   ("tldWeight", (alookup cfg.tldWeights suffix).getD 0),
   ("locationBonus",
     match location with
     | some l => if !(l = "") && (suffix = jsToLower l : Bool) then cfg.locationTldBonus else 0
     | none => 0),
   ("dictWord", if isDictionaryWord dict label then cfg.dictionaryWord else 0),
   ("dictSubstr",
     if !(isDictionaryWord dict label) && isComposedOfDictionaryWords dict label
     then cfg.dictionarySubstr else 0)]

/-- `scoreDomain` (src/src/scoring.ts). -/
def scoreDomain (dict : String → Bool) (label tld : String)
    (location : Option String) (cfg : ScoringConfig) : DomainScore :=
  let entries := scoreEntries dict label tld location cfg
  { total := entries.foldl (fun acc e => acc + e.2) 0,
    components := entries.filter (fun e => !(e.2 = 0)) }

/-- The label extraction of `scoreCandidates`:
`cand.domain.slice(0, -(cand.suffix.length + 1))`. -/
def sliceLabel (d s : String) : String :=
  String.mk (d.data.take (d.data.length - (s.length + 1)))

/-- The keep-condition of `scoreCandidates`' loop: both fields present and
truthy, and the lowercased suffix supported (when the supported set is
non-empty). -/
def keepCand (orderedTlds : List String) (c : RawCandidate) : Bool :=
  match c.domain, c.suffix with
  | some d, some s =>
    !(d = "") && !(s = "") &&
      (((orderedTlds.map jsToLower).isEmpty) ||
        (orderedTlds.map jsToLower).contains (jsToLower s))
  | _, _ => false

/-- The result built by `scoreCandidates` for a kept candidate. -/
def scoreOne (dict : String → Bool) (location : Option String)
    (tldWeights : List (String × JsNum)) (c : RawCandidate) : DomainCandidate :=
  let d := c.domain.getD ""
  let s := c.suffix.getD ""
  let suffix := jsToLower s
  { domain := d, suffix := suffix, strategy := c.strategy,
    score := scoreDomain dict (sliceLabel d s) suffix location
      { defaultScoringConfig with tldWeights := tldWeights } }

/-- Descending stable comparator on `score.total`
(`(a, b) => b.score.total - a.score.total`). -/
def totalGe (a b : DomainCandidate) : Bool := decide (b.score.total ≤ a.score.total)

/-- `scoreCandidates` (src/src/scoring.ts): drop candidates without a
truthy domain and suffix and, when `orderedTlds` is non-empty, candidates
whose lowercased suffix is unsupported; score the rest and sort by total,
descending and stable. -/
def scoreCandidates (dict : String → Bool) (cands : List RawCandidate)
    (orderedTlds : List String) (location : Option String)
    (tldWeights : List (String × JsNum)) : List DomainCandidate :=
  sortStable totalGe
    ((cands.filter (keepCand orderedTlds)).map (scoreOne dict location tldWeights))

/-- `maxStrategyRun` of `rankDomains`. -/
def maxStrategyRun : ℕ := 1

/-- `lookahead` of `rankDomains`. -/
def lookahead : ℕ := 6

/-- Index of the last dot of a string, if any. -/
def lastDotIdx (s : String) : Option ℕ :=
  match s.data.reverse.findIdx? (fun c => c = '.') with
  | some k => some (s.data.length - 1 - k)
  | none => none

/-- `getDomainLabel` (src/src/ranking.ts): strip the declared suffix when
the domain really ends in it, else strip after the last dot when that dot
is not the first character. -/
def getDomainLabel (c : DomainCandidate) : String :=
  if !(c.suffix = "") && strEndsWith c.domain ("." ++ c.suffix) then
    String.mk (c.domain.data.take (c.domain.data.length - (c.suffix.length + 1)))
  else
    match lastDotIdx c.domain with
    | some idx => if 0 < idx then String.mk (c.domain.data.take idx) else c.domain
    | none => c.domain

/-- `cand.strategy || 'other'`: absent or empty strategy reads as
"other". -/
def stratOf (c : DomainCandidate) : String :=
  match c.strategy with
  | some s => if s = "" then "other" else s
  | none => "other"

/-- The window scan of `rankDomains`: returns (first unused-label index
that breaks the strategy run — the scan stops there — , first unused-label
index that does not), with indices relative to the window. -/
def scanWin (used : List String) (last : Option String) (run : ℕ) :
    List DomainCandidate → Option ℕ × Option ℕ
  | [] => (none, none)
  | c :: rest =>
    if used.contains (getDomainLabel c) then
      ((scanWin used last run rest).1.map (· + 1),
        (scanWin used last run rest).2.map (· + 1))
    else if !(last = some (stratOf c) ∧ maxStrategyRun ≤ run) then (some 0, none)
    else ((scanWin used last run rest).1.map (· + 1), some 0)

/-- The pick decision for one group: the scan's pick, else its fallback,
else the window's first item; `none` only for an empty queue (the loop's
`continue`). -/
def pickIndex (used : List String) (last : Option String) (run : ℕ)
    (queue : List DomainCandidate) : Option ℕ :=
  if queue.isEmpty then none
  else
    match scanWin used last run (queue.take lookahead) with
    | (some i, _) => some i
    | (none, some i) => some i
    | (none, none) => some 0

/-- What `rankDomains` knew at the moment one item was picked: the item,
the lookahead window of its group's queue, and the used-label set, last
strategy and run counter before the pick. -/
structure PickRecord where
  item : DomainCandidate
  window : List DomainCandidate
  usedBefore : List String
  lastBefore : Option String
  runBefore : ℕ
deriving Repr, DecidableEq, Inhabited

/-- The mutable state of `rankDomains`' selection loop, with the pick
trace carried alongside for specification purposes (`rankDomains` itself
only reads `out`). -/
structure RankSt where
  out : List DomainCandidate
  used : List String
  last : Option String
  run : ℕ
  trace : List PickRecord
deriving Repr, DecidableEq, Inhabited

/-- One pick from one group's queue: choose the index, splice the item
out, mark its label used, update the strategy-run bookkeeping, append to
the output (and record the pick). -/
def pickStep (st : RankSt) (queue : List DomainCandidate) :
    Option (DomainCandidate × List DomainCandidate × RankSt) :=
  match pickIndex st.used st.last st.run queue with
  | none => none
  | some i =>
    match queue.get? i with
    | none => none
    | some item =>
      let queue1 := queue.eraseIdx i
      let lbl := getDomainLabel item
      let strat := stratOf item
      let used1 := if st.used.contains lbl then st.used else lbl :: st.used
      let lastRun := if st.last = some strat then (st.last, st.run + 1)
        else (some strat, 1)
      let rcd : PickRecord :=
        { item := item, window := queue.take lookahead,
          usedBefore := st.used, lastBefore := st.last, runBefore := st.run }
      some (item, queue1,
        { out := st.out ++ [item], used := used1,
          last := lastRun.1, run := lastRun.2, trace := st.trace ++ [rcd] })

/-- One sweep across the groups (the `for (gi ...)` loop): pick at most
one item per group, short-circuiting when the output reaches the limit.
Returns the updated groups (queues shrunk in place), the state, the
number of picks, and whether the early `return out` fired. -/
def sweep (limit : Option ℕ) :
    List (String × List DomainCandidate) → RankSt → ℕ →
    (List (String × List DomainCandidate) × RankSt × ℕ × Bool)
  | [], st, picked => ([], st, picked, false)
  | (sfx, queue) :: rest, st, picked =>
    match pickStep st queue with
    | none =>
      let r := sweep limit rest st picked
      ((sfx, queue) :: r.1, r.2)
    | some (_, queue1, st1) =>
      let stop := match limit with
        | some l => decide (l ≤ st1.out.length)
        | none => false
      if stop then ((sfx, queue1) :: rest, st1, picked + 1, true)
      else
        let r := sweep limit rest st1 (picked + 1)
        ((sfx, queue1) :: r.1, r.2)

/-- The outer `while` loop of `rankDomains`, with fuel (the loop makes at
least one pick per iteration or breaks, so `n + 1` fuel always suffices
for `n` candidates). -/
def rankLoop (limit : Option ℕ) (n : ℕ) :
    ℕ → List (String × List DomainCandidate) → RankSt → RankSt
  | 0, _, st => st
  | fuel + 1, groups, st =>
    if st.out.length < n ∧ !groups.isEmpty then
      let r := sweep limit groups st 0
      if r.2.2.2 then r.2.1
      else
        let groups1 := r.1.filter (fun g => !g.2.isEmpty)
        if r.2.2.1 = 0 then r.2.1
        else rankLoop limit n fuel groups1 r.2.1
    else st

/-- The suffix grouping of `rankDomains`: a `Map` keyed by suffix in
first-appearance order, each queue in sorted order. -/
def addToGroups : List (String × List DomainCandidate) → DomainCandidate →
    List (String × List DomainCandidate)
  | [], c => [(c.suffix, [c])]
  | (s, q) :: rest, c =>
    if s = c.suffix then (s, q ++ [c]) :: rest
    else (s, q) :: addToGroups rest c

/-- Build the suffix groups from the sorted candidate list. -/
def buildGroups (l : List DomainCandidate) : List (String × List DomainCandidate) :=
  l.foldl addToGroups []

/-- A group's sort key: its top score, 0 for an empty queue. -/
def groupKey (g : String × List DomainCandidate) : JsNum :=
  match g.2 with
  | [] => 0
  | c :: _ => c.score.total

/-- Descending stable comparator on the groups' top scores. -/
def groupGe (a b : String × List DomainCandidate) : Bool :=
  decide (groupKey b ≤ groupKey a)

/-- `rankDomains` (src/src/ranking.ts), instrumented: the final state of
the selection loop, whose `out` field is the function's return value and
whose `trace` field records every pick. -/
def rankDomainsT (cands : List DomainCandidate) (limit : Option ℕ) : RankSt :=
  if cands.isEmpty then { out := [], used := [], last := none, run := 0, trace := [] }
  else
    let sorted := sortStable totalGe cands
    let groups := sortStable groupGe (buildGroups sorted)
    rankLoop limit sorted.length (sorted.length + 1) groups
      { out := [], used := [], last := none, run := 0, trace := [] }

/-- `rankDomains(candidates, limit)`. -/
def rankDomains (cands : List DomainCandidate) (limit : Option ℕ) :
    List DomainCandidate :=
  (rankDomainsT cands limit).out

/-- The pick trace of the same `rankDomains` run. -/
def rankTrace (cands : List DomainCandidate) (limit : Option ℕ) :
    List PickRecord :=
  (rankDomainsT cands limit).trace

/-- The generate→score→rank pipeline of `executeSearch`
(src/src/searchCore.ts, steps 2-4): candidates from the merger, scored
against the processed query, ranked with the generation limit. -/
def searchPipeline (ext : ExtDeps) (opts : ProcessedQuery)
    (location : Option String) (tldWeights : List (String × JsNum))
    (draws : ℕ → ℕ) : Except String (List DomainCandidate) :=
  match generateCandidates ext opts draws with
  | Except.error e => Except.error e
  | Except.ok raw =>
    Except.ok (rankDomains (scoreCandidates ext.dict raw opts.orderedTlds location tldWeights)
      (some opts.limit))

/-- A dictionary state whose synonym lookup always throws. -/
def synFailExt : ExtDeps :=
  { syn := fun _ => Except.error (), stop := [], dict := fun _ => false }

/-- A `JsNum` denotes a JavaScript number through its reduced
representation: positive denominator and coprime numerator (every value
the pipeline itself produces is of this form). -/
def JsNum.Reduced (a : JsNum) : Prop :=
  a.den ≠ 0 ∧ Nat.gcd a.num.natAbs a.den = 1

/-- A dictionary state with no synonyms at all. -/
def noSynExt : ExtDeps :=
  { syn := fun _ => Except.ok none, stop := [], dict := fun _ => false }

/-- A dictionary state giving the token "zib" the synonyms aa and aab and
the token "yar" the synonyms bbc and bc — so that the two synonym lists
produce the combination aabbc twice (aab+bc and aa+bbc). -/
def dupSynExt : ExtDeps :=
  { syn := fun t =>
      if t = "zib" then Except.ok (some [["aa", "aab"]])
      else if t = "yar" then Except.ok (some [["bbc", "bc"]])
      else Except.ok none,
    stop := [], dict := fun _ => false }

/-- A processed query on which the affix strategy emits the same domain
twice (bases aabbc arise from two different synonym picks). -/
def dupQuery : ProcessedQuery :=
  { query := "zib yar", tokens := ["zib", "yar"], synonyms := [],
    orderedTlds := ["com"], includeHyphenated := false, limit := 50,
    prefixes := ["p"], suffixes := [], keywords := [], maxSynonyms := some 5,
    defaultTld := some "com", preferredTlds := [], supportedTlds := [] }

/-- A three-token processed query without synonyms: the three pair
combinations make the Fisher-Yates pair order observable in the output. -/
def threeTokenQuery : ProcessedQuery :=
  { query := "bora cena dipu", tokens := ["bora", "cena", "dipu"], synonyms := [],
    orderedTlds := ["com"], includeHyphenated := false, limit := 50,
    prefixes := [], suffixes := [], keywords := [], maxSynonyms := some 5,
    defaultTld := some "com", preferredTlds := [], supportedTlds := [] }

/-- A dictionary state giving "zib" the synonym "aa". -/
def oneSynExt : ExtDeps :=
  { syn := fun t => if t = "zib" then Except.ok (some [["aa"]]) else Except.ok none,
    stop := [], dict := fun _ => false }

/-- A query whose TLD set is empty: no default, preferred or supported
TLDs, and an empty `orderedTlds`. -/
def emptyTldQuery : ProcessedQuery :=
  { query := "zib", tokens := [], synonyms := [],
    orderedTlds := [], includeHyphenated := false, limit := 50,
    prefixes := ["p"], suffixes := [], keywords := [], maxSynonyms := some 5,
    defaultTld := none, preferredTlds := [], supportedTlds := [] }

/-- A two-token processed query (for the determinism witness). -/
def twoTokenQuery : ProcessedQuery :=
  { query := "fast tech", tokens := ["fast", "tech"], synonyms := [],
    orderedTlds := ["com"], includeHyphenated := false, limit := 50,
    prefixes := [], suffixes := [], keywords := [], maxSynonyms := some 5,
    defaultTld := some "com", preferredTlds := [], supportedTlds := [] }

/-- All queued candidates of a group list, in group order (used only to
state properties of the ranking loop). -/
def flattenQ : List (String × List DomainCandidate) → List DomainCandidate
  | [] => []
  | g :: rest => g.2 ++ flattenQ rest

/-- Specification of one recorded pick: if, at the moment of the pick,
the previous strategy had already run `maxStrategyRun` consecutive picks
and the lookahead window still held an unused-label item of a different
strategy, then the picked item's strategy differs from the previous one. -/
def pickOk (rcd : PickRecord) : Prop :=
  ∀ s, rcd.lastBefore = some s → maxStrategyRun ≤ rcd.runBefore →
    (∃ c ∈ rcd.window, rcd.usedBefore.contains (getDomainLabel c) = false ∧
      ¬ stratOf c = s) →
    ¬ stratOf rcd.item = s

/-- Invariant of the ranking loop state tying the pick trace to the
output: the trace lists exactly the emitted items in order, each record's
pre-pick strategy bookkeeping points at the previously emitted item, and
every recorded pick satisfies `pickOk`. -/
def traceInv (st : RankSt) : Prop :=
  st.trace.map (fun r => r.item) = st.out ∧
  (¬ st.trace = [] →
    st.last = some (stratOf ((st.trace.getLast?.getD default).item)) ∧
    maxStrategyRun ≤ st.run) ∧
  (∀ k, k + 1 < st.trace.length →
    (st.trace.getD (k + 1) default).lastBefore
        = some (stratOf ((st.trace.getD k default).item)) ∧
    maxStrategyRun ≤ (st.trace.getD (k + 1) default).runBefore) ∧
  (∀ rcd ∈ st.trace, pickOk rcd)

/-- Two same-strategy candidates in one suffix group (for the C6
witness): with no different-strategy alternative in the window, two
consecutive affix picks are allowed. -/
def sameStratCands : List DomainCandidate :=
  [{ domain := "aa.com", suffix := "com", strategy := some "affix",
     score := { total := 10, components := [] } },
   { domain := "bb.com", suffix := "com", strategy := some "affix",
     score := { total := 5, components := [] } }]

/-! Helper lemmas about the list combinators of the embedding. -/

theorem insertStable_perm (le : α → α → Bool) (x : α) (l : List α) :
    (insertStable le x l).Perm (x :: l) := by
  induction l with
  | nil => simp [insertStable]
  | cons y ys ih =>
    simp only [insertStable]
    split
    · exact List.Perm.refl _
    · exact (ih.cons y).trans (List.Perm.swap x y ys)

theorem sortStable_perm (le : α → α → Bool) (l : List α) :
    (sortStable le l).Perm l := by
  induction l with
  | nil => simp [sortStable]
  | cons x xs ih =>
    exact (insertStable_perm le x (sortStable le xs)).trans (ih.cons x)

theorem mem_sortStable {le : α → α → Bool} {l : List α} {a : α} :
    a ∈ sortStable le l ↔ a ∈ l :=
  (sortStable_perm le l).mem_iff

theorem mem_of_mem_dedupFirstAux [BEq α] {seen l : List α} {a : α} :
    a ∈ dedupFirstAux seen l → a ∈ l := by
  induction l generalizing seen with
  | nil => simp [dedupFirstAux]
  | cons x xs ih =>
    simp only [dedupFirstAux]
    split
    · exact fun h => List.mem_cons_of_mem x (ih h)
    · intro h
      rcases List.mem_cons.mp h with h | h
      · exact h ▸ List.mem_cons_self x xs
      · exact List.mem_cons_of_mem x (ih h)

theorem mem_of_mem_dedupFirst [BEq α] {l : List α} {a : α} :
    a ∈ dedupFirst l → a ∈ l :=
  mem_of_mem_dedupFirstAux

theorem charOfNat_toNat {n : ℕ} (h : n.isValidChar) : (Char.ofNat n).toNat = n := by
  simp only [Char.ofNat, dif_pos h]
  rfl

theorem jsLowerChar_idem (c : Char) : jsLowerChar (jsLowerChar c) = jsLowerChar c := by
  unfold jsLowerChar
  by_cases h : 65 ≤ c.toNat ∧ c.toNat ≤ 90
  · rw [if_pos h]
    have hv : (c.toNat + 32).isValidChar := Or.inl (by omega)
    rw [if_neg]
    rw [charOfNat_toNat hv]
    omega
  · rw [if_neg h, if_neg h]

theorem mapLower_idem (l : List Char) :
    l.map (fun c => jsLowerChar (jsLowerChar c)) = l.map jsLowerChar := by
  induction l with
  | nil => rfl
  | cons c cs ih => simp [jsLowerChar_idem, ih]

theorem jsToLower_idem (s : String) : jsToLower (jsToLower s) = jsToLower s := by
  show String.mk ((s.data.map jsLowerChar).map jsLowerChar) = String.mk (s.data.map jsLowerChar)
  rw [List.map_map]
  exact congrArg String.mk (mapLower_idem s.data)

/-- Every word kept by the collection loop of `expandSynonyms` is a
lowered string, differs from the base token, and has at most 15
characters. -/
theorem collectSyn_props {base a : String} {cats : List (List String)}
    (h : a ∈ collectSyn base cats) :
    jsToLower a = a ∧ a ≠ base ∧ a.length ≤ 15 := by
  have h1 := mem_of_mem_dedupFirst h
  rcases List.mem_filterMap.mp h1 with ⟨w, _, hw⟩
  by_cases hc : jsToLower w = "" ∨ jsToLower w = base ∨ 15 < (jsToLower w).length
  · simp only [if_pos hc] at hw
    exact absurd hw (by simp)
  · simp only [if_neg hc] at hw
    push_neg at hc
    have hwa := Option.some.inj hw
    subst hwa
    exact ⟨jsToLower_idem w, hc.2.1, by omega⟩

/-- Every element of `expandSynonyms`' combined word list is a lowered
string, differs from the base token, and has at most 15 characters. -/
theorem expandSynonyms_combined_props (ext : ExtDeps) (token : String)
    (extra : List String) {a : String}
    (h : a ∈ (match ext.syn (jsToLower token) with
      | Except.error _ => []
      | Except.ok none => []
      | Except.ok (some cats) => sortStable lenLexLe (collectSyn (jsToLower token) cats))
      ++ (extra.map jsToLower).filter
        (fun e => !(e = "") && !(e = jsToLower token) && decide (e.length ≤ 15))) :
    jsToLower a = a ∧ a ≠ jsToLower token ∧ a.length ≤ 15 := by
  rcases List.mem_append.mp h with h | h
  · rcases hsyn : ext.syn (jsToLower token) with e | o
    · rw [hsyn] at h; simp at h
    · rcases o with _ | cats
      · rw [hsyn] at h; simp at h
      · rw [hsyn] at h
        exact collectSyn_props (mem_sortStable.mp h)
  · rcases List.mem_filter.mp h with ⟨hm, hp⟩
    rcases List.mem_map.mp hm with ⟨e, _, rfl⟩
    simp only [Bool.and_eq_true, decide_eq_true_eq, Bool.not_eq_eq_eq_not,
      Bool.not_true, decide_eq_false_iff_not] at hp
    exact ⟨jsToLower_idem e, hp.1.2, hp.2⟩

/-- C10: for every dictionary state, token, requested maximum and extra
list, the list returned by `expandSynonyms` never contains the token
itself, contains only words of length between 2 and 15, and has length at
most `min max 10` — the cap is 10 even when a larger maximum is
requested. -/
theorem expandSynonyms_bounds (ext : ExtDeps) (token : String) (max : ℕ)
    (extra : List String) :
    token ∉ expandSynonyms ext token max extra ∧
    (∀ w ∈ expandSynonyms ext token max extra, 2 ≤ w.length ∧ w.length ≤ 15) ∧
    (expandSynonyms ext token max extra).length ≤ min max 10 := by
  have hmem : ∀ w ∈ expandSynonyms ext token max extra,
      (jsToLower w = w ∧ w ≠ jsToLower token ∧ w.length ≤ 15) ∧ 1 < w.length := by
    intro w hw
    unfold expandSynonyms at hw
    have hw1 := List.mem_of_mem_take hw
    have hw2 := mem_sortStable.mp hw1
    rcases List.mem_filter.mp hw2 with ⟨hw3, hlen⟩
    have hw4 := mem_of_mem_dedupFirst hw3
    refine ⟨expandSynonyms_combined_props ext token extra hw4, ?_⟩
    simpa using hlen
  refine ⟨?_, ?_, ?_⟩
  · intro h
    rcases hmem token h with ⟨⟨hlow, hne, _⟩, _⟩
    exact hne hlow.symm
  · intro w hw
    rcases hmem w hw with ⟨⟨_, _, h15⟩, h2⟩
    exact ⟨h2, h15⟩
  · unfold expandSynonyms
    calc (List.take (min max 10) _).length ≤ min max 10 := List.length_take_le _ _

/-- C5 counterexample: when the dictionary lookup fails, `expandSynonyms`
returns the empty list, not the one-element list containing the token
itself as the spec claims. -/
theorem expandSynonyms_failure_counterexample :
    expandSynonyms synFailExt "bluesky" 10 [] = [] ∧
    expandSynonyms synFailExt "bluesky" 10 [] ≠ ["bluesky"] := by
  constructor
  · rfl
  · decide

/-- C5 (amended): when the dictionary lookup throws, returns nothing, or
returns an empty record, `expandSynonyms` returns the empty list — the
token itself is excluded by construction — and, being a total function
whose lookup failure is absorbed, it never throws. -/
theorem expandSynonyms_failure_amended (ext : ExtDeps) (token : String) (max : ℕ)
    (h : ext.syn (jsToLower token) = Except.error () ∨
      ext.syn (jsToLower token) = Except.ok none ∨
      ext.syn (jsToLower token) = Except.ok (some [])) :
    expandSynonyms ext token max [] = [] := by
  unfold expandSynonyms
  rcases h with h | h | h <;>
    simp [h, collectSyn, dedupFirst, dedupFirstAux, sortStable]

/-- C5 amended-claim witness at a concrete failing lookup. -/
theorem expandSynonyms_failure_amended_witness :
    expandSynonyms synFailExt "fast" 7 [] = [] :=
  expandSynonyms_failure_amended synFailExt "fast" 7 (Or.inl rfl)

theorem alookup_filter_skip {p : String × JsNum → Bool} {k k' : String}
    {v : JsNum} {l : List (String × JsNum)} (hk : ¬ k' = k) :
    alookup (List.filter p ((k', v) :: l)) k = alookup (List.filter p l) k := by
  simp only [List.filter_cons]
  split
  · simp [alookup, List.find?_cons, hk]
  · rfl

theorem alookup_filter_hit {p : String × JsNum → Bool} {k : String}
    {v : JsNum} {l : List (String × JsNum)} (hp : p (k, v) = true) :
    alookup (List.filter p ((k, v) :: l)) k = some v := by
  simp [List.filter_cons, hp, alookup, List.find?_cons]

theorem JsNum.neg_eq_zero {w : JsNum} : -w = (0 : JsNum) ↔ w = 0 := by
  cases w with
  | mk n d =>
    show JsNum.mk (-n) d = JsNum.mk 0 1 ↔ JsNum.mk n d = JsNum.mk 0 1
    simp only [JsNum.mk.injEq]
    omega

theorem negOne_mul_reduced {w : JsNum} (hr : w.Reduced) :
    -(jsOfNat 1) * w = -w := by
  rcases hr with ⟨hd, hg⟩
  show JsNum.mk' ((-(jsOfNat 1)).num * w.num) ((-(jsOfNat 1)).den * w.den) = -w
  have h1 : (-(jsOfNat 1)).num * w.num = -w.num := by
    show (-1) * w.num = -w.num
    ring
  have h2 : (-(jsOfNat 1)).den * w.den = w.den := by
    show 1 * w.den = w.den
    ring
  rw [h1, h2]
  unfold JsNum.mk'
  rw [if_neg hd]
  simp only [Int.natAbs_neg, hg]
  rw [if_neg (by omega)]
  show JsNum.mk (-w.num / ((1 : ℕ) : Int)) (w.den / 1) = -w
  simp [Int.ediv_one]
  rfl

/-- C7: with the default configuration, `fasttech.com` outscores
`fast-tech.com` whatever the external word list, and for every label with
exactly one hyphen the recorded `hyphenPenalty` component is minus the
configured hyphen weight (a non-zero reduced configuration value, which
the default is). -/
theorem scoreDomain_hyphen_penalty :
    (∀ dict : String → Bool,
      (scoreDomain dict "fast-tech" "com" none defaultScoringConfig).total <
        (scoreDomain dict "fasttech" "com" none defaultScoringConfig).total) ∧
    (∀ (dict : String → Bool) (label tld : String) (location : Option String)
        (cfg : ScoringConfig),
      hyphenCount label = 1 → ¬ cfg.hyphenPenalty = 0 → cfg.hyphenPenalty.Reduced →
      alookup (scoreDomain dict label tld location cfg).components "hyphenPenalty"
        = some (-cfg.hyphenPenalty)) := by
  constructor
  · intro dict
    have hfalse : isDictionaryWord dict "fast-tech" = false := rfl
    cases h1 : isDictionaryWord dict "fasttech" <;>
      cases h2 : isComposedOfDictionaryWords dict "fasttech" <;>
        cases h3 : isComposedOfDictionaryWords dict "fast-tech" <;>
          · simp only [scoreDomain, scoreEntries, h1, h2, h3, hfalse]
            decide
  · intro dict label tld location cfg h1 hnz hred
    have hv : -(jsOfNat (hyphenCount label)) * cfg.hyphenPenalty = -cfg.hyphenPenalty := by
      rw [h1]
      exact negOne_mul_reduced hred
    have hkeep : (fun e : String × JsNum => !(e.2 = 0 : Bool))
        ("hyphenPenalty", -cfg.hyphenPenalty) = true := by
      simp only [Bool.not_eq_eq_eq_not, Bool.not_true, decide_eq_false_iff_not]
      intro h0
      exact hnz (JsNum.neg_eq_zero.mp h0)
    simp only [scoreDomain, scoreEntries, hv]
    rw [alookup_filter_skip (by decide), alookup_filter_skip (by decide),
      alookup_filter_hit hkeep]

/-- C7 witness: the hypotheses hold and the conclusion evaluates at the
default configuration, the label `fast-tech` and the empty word list. -/
theorem scoreDomain_hyphen_penalty_witness :
    (hyphenCount "fast-tech" = 1 ∧ ¬ defaultScoringConfig.hyphenPenalty = 0 ∧
      defaultScoringConfig.hyphenPenalty.Reduced) ∧
    alookup (scoreDomain (fun _ => false) "fast-tech" "com" none
      defaultScoringConfig).components "hyphenPenalty"
      = some (-defaultScoringConfig.hyphenPenalty) ∧
    (scoreDomain (fun _ => false) "fast-tech" "com" none defaultScoringConfig).total <
      (scoreDomain (fun _ => false) "fasttech" "com" none defaultScoringConfig).total :=
  ⟨⟨by decide, by decide, by decide, by decide⟩,
    scoreDomain_hyphen_penalty.2 (fun _ => false) "fast-tech" "com" none
      defaultScoringConfig (by decide) (by decide) ⟨by decide, by decide⟩,
    scoreDomain_hyphen_penalty.1 (fun _ => false)⟩

/-- C8: for every candidate list and processed query with non-empty
`orderedTlds`, `scoreCandidates` keeps exactly the candidates with a
truthy domain and suffix whose lowercased suffix is in `orderedTlds`
(compared case-insensitively) — dropping all others — and every surviving
result carries the lowercased suffix: the output is a permutation (it is
re-sorted by score) of the kept candidates' scored forms, and every
output suffix is a member of the lowercased `orderedTlds`. -/
theorem scoreCandidates_filter_characterization (dict : String → Bool)
    (cands : List RawCandidate) (orderedTlds : List String)
    (location : Option String) (tldWeights : List (String × JsNum))
    (h : orderedTlds ≠ []) :
    (scoreCandidates dict cands orderedTlds location tldWeights).Perm
      ((cands.filter (keepCand orderedTlds)).map (scoreOne dict location tldWeights)) ∧
    ∀ r ∈ scoreCandidates dict cands orderedTlds location tldWeights,
      r.suffix ∈ orderedTlds.map jsToLower := by
  refine ⟨sortStable_perm _ _, ?_⟩
  intro r hr
  have hr2 := (sortStable_perm totalGe _).mem_iff.mp hr
  rcases List.mem_map.mp hr2 with ⟨c, hc, rfl⟩
  rcases List.mem_filter.mp hc with ⟨_, hk⟩
  rcases hd : c.domain with _ | d <;> rcases hs : c.suffix with _ | s <;>
    simp only [keepCand, hd, hs] at hk <;>
    first
    | exact absurd hk (by decide)
    | skip
  have hne : (orderedTlds.map jsToLower).isEmpty = false := by
    cases orderedTlds with
    | nil => exact absurd rfl h
    | cons t ts => rfl
  rw [hne] at hk
  simp only [Bool.false_or, Bool.and_eq_true] at hk
  have hmem : jsToLower s ∈ orderedTlds.map jsToLower := by
    have := hk.2
    exact List.mem_of_elem_eq_true this
  simpa [scoreOne, hs] using hmem

/-- C8 witness: concrete candidates — one kept (uppercase suffix
lowered), one without a domain, one with an unsupported suffix. -/
theorem scoreCandidates_filter_characterization_witness :
    (["com"] : List String) ≠ [] ∧
    ((scoreCandidates (fun _ => false)
        [{ domain := some "ab.com", suffix := some "COM", strategy := some "affix" },
         { domain := none, suffix := some "com", strategy := none },
         { domain := some "x.net", suffix := some "net", strategy := none }]
        ["com"] none []).Perm
      (([{ domain := some "ab.com", suffix := some "COM", strategy := some "affix" },
         { domain := none, suffix := some "com", strategy := none },
         { domain := some "x.net", suffix := some "net", strategy := none }].filter
           (keepCand ["com"])).map (scoreOne (fun _ => false) none [])) ∧
    ∀ r ∈ scoreCandidates (fun _ => false)
        [{ domain := some "ab.com", suffix := some "COM", strategy := some "affix" },
         { domain := none, suffix := some "com", strategy := none },
         { domain := some "x.net", suffix := some "net", strategy := none }]
        ["com"] none [],
      r.suffix ∈ (["com"] : List String).map jsToLower) :=
  ⟨by decide,
    scoreCandidates_filter_characterization (fun _ => false)
      [{ domain := some "ab.com", suffix := some "COM", strategy := some "affix" },
       { domain := none, suffix := some "com", strategy := none },
       { domain := some "x.net", suffix := some "net", strategy := none }]
      ["com"] none [] (by decide)⟩

/-- C2 counterexample: the merger keeps both occurrences of the domain
`paabbc.com` (both produced by the affix strategy from two different
synonym combinations), so later duplicates are not dropped. -/
theorem generateCandidates_duplicate_counterexample :
    ((generateCandidates dupSynExt dupQuery (fun _ => 0)).toOption.getD []).countP
      (fun c => c.domain == some "paabbc.com") = 2 := by
  decide

/-- C2 (amended): `generateCandidates` tags every strategy output with
its strategy name and concatenates the outputs in strategy listing order
(permutation, alphabetical, affix, tldHack); it performs no
deduplication, so every occurrence of a domain is kept. -/
theorem generateCandidates_merge_order (ext : ExtDeps) (opts : ProcessedQuery)
    (draws : ℕ → ℕ) (hack : List RawCandidate)
    (h : tldHackGenerate ext opts = Except.ok hack) :
    generateCandidates ext opts draws =
      Except.ok (tagStrategy "permutation" (permutationGenerate opts draws)
        ++ tagStrategy "alphabetical" (alphabeticalGenerate ext opts)
        ++ tagStrategy "affix" (affixGenerate ext opts)
        ++ tagStrategy "tldHack" hack) := by
  unfold generateCandidates
  rw [h]

/-- C2 amended-claim witness at the duplicate-producing inputs. -/
theorem generateCandidates_merge_order_witness :
    tldHackGenerate dupSynExt dupQuery = Except.ok [] ∧
    generateCandidates dupSynExt dupQuery (fun _ => 0) =
      Except.ok (tagStrategy "permutation" (permutationGenerate dupQuery (fun _ => 0))
        ++ tagStrategy "alphabetical" (alphabeticalGenerate dupSynExt dupQuery)
        ++ tagStrategy "affix" (affixGenerate dupSynExt dupQuery)
        ++ tagStrategy "tldHack" []) :=
  ⟨rfl, generateCandidates_merge_order dupSynExt dupQuery (fun _ => 0) [] rfl⟩

/-- C3 counterexample: the duplicate domain survives scoring and ranking,
so the final ranked output of generate→score→rank contains `paabbc.com`
twice. -/
theorem pipeline_duplicate_domain_counterexample :
    ((searchPipeline dupSynExt dupQuery none [] (fun _ => 0)).toOption.getD []).countP
      (fun c => c.domain == "paabbc.com") = 2 := by
  decide

/-- C4: on a query with an empty TLD set the tld-hack strategy throws a
TypeError (mapping `toLowerCase` over a set containing `undefined`)
instead of returning an empty list, and the affix strategy returns a
non-empty list of `.undefined` domains; only the permutation strategy
returns the empty list as specified. -/
theorem emptyTldSet_code_bug :
    tldHackGenerate oneSynExt emptyTldQuery = Except.error tldHackError ∧
    ¬ affixGenerate oneSynExt emptyTldQuery = [] ∧
    affixGenerate oneSynExt emptyTldQuery =
      [{ domain := some "paa.undefined", suffix := none, strategy := none }] ∧
    permutationGenerate emptyTldQuery (fun _ => 0) = [] :=
  ⟨rfl, by decide, rfl, rfl⟩

/-- C1 counterexample: two runs of the generate→score→rank pipeline on
the same processed query, configuration and dictionary state, differing
only in the `Math.random` draws of the permutation strategy's pair
shuffle, produce different ordered outputs. -/
theorem pipeline_nondeterminism_counterexample :
    (searchPipeline noSynExt threeTokenQuery none [] id).toOption.getD [] ≠
      (searchPipeline noSynExt threeTokenQuery none [] (fun _ => 0)).toOption.getD [] := by
  decide

theorem fisherYates_short (draws : ℕ → ℕ) (l : List α) (h : l.length ≤ 1) :
    fisherYates draws l = l := by
  unfold fisherYates
  have h0 : l.length - 1 = 0 := by omega
  rw [h0]
  rfl

theorem mkPairs_short {n : ℕ} (h : n ≤ 2) : (mkPairs n).length ≤ 1 := by
  interval_cases n <;> decide

/-- With at most two tokens the pair list has at most one element, so the
Fisher-Yates shuffle is the identity and `PermutationStrategy.generate`
does not depend on the random draws. -/
theorem permutationGenerate_draws_indep (opts : ProcessedQuery)
    (h : opts.tokens.length ≤ 2) (d1 d2 : ℕ → ℕ) :
    permutationGenerate opts d1 = permutationGenerate opts d2 := by
  have key : ∀ d : ℕ → ℕ,
      fisherYates d (mkPairs ((opts.tokens.map
        (fun t => t :: lookupSyn opts.synonyms t)).length)) =
      mkPairs ((opts.tokens.map (fun t => t :: lookupSyn opts.synonyms t)).length) := by
    intro d
    exact fisherYates_short d _ (mkPairs_short (by simpa using h))
  simp only [permutationGenerate]
  rw [key d1, key d2]

/-- C1 (amended): for a fixed ProcessedQuery, scoring configuration and
dictionary state, the generate→score→rank pipeline is a function of the
random draws of the permutation strategy's pair shuffle alone; whenever
the shuffle cannot act — in particular for every query of at most two
tokens — two runs produce identical ordered output. -/
theorem searchPipeline_deterministic_le_two_tokens (ext : ExtDeps)
    (opts : ProcessedQuery) (location : Option String)
    (tldWeights : List (String × JsNum)) (d1 d2 : ℕ → ℕ)
    (h : opts.tokens.length ≤ 2) :
    searchPipeline ext opts location tldWeights d1 =
      searchPipeline ext opts location tldWeights d2 := by
  unfold searchPipeline generateCandidates
  rw [permutationGenerate_draws_indep opts h d1 d2]

/-- C1 amended-claim witness: the two-token query gives equal pipeline
output for two different draw oracles. -/
theorem searchPipeline_deterministic_witness :
    twoTokenQuery.tokens.length ≤ 2 ∧
    searchPipeline noSynExt twoTokenQuery none [] id =
      searchPipeline noSynExt twoTokenQuery none [] (fun _ => 0) :=
  ⟨by decide,
    searchPipeline_deterministic_le_two_tokens noSynExt twoTokenQuery none [] id
      (fun _ => 0) (by decide)⟩

/-! Lemmas about the selection loop of `rankDomains`. -/

theorem get?_eraseIdx_perm : ∀ (l : List α) (i : ℕ) (a : α),
    l.get? i = some a → l.Perm (a :: l.eraseIdx i)
  | [], i, a, h => by simp at h
  | x :: xs, 0, a, h => by
    simp only [List.get?_cons_zero, Option.some.injEq] at h
    subst h
    simp [List.eraseIdx]
  | x :: xs, n + 1, a, h => by
    simp only [List.get?_cons_succ] at h
    have ih := get?_eraseIdx_perm xs n a h
    exact (ih.cons x).trans (List.Perm.swap a x (xs.eraseIdx n))

theorem scanWin_fst_lt {u : List String} {l : Option String} {r : ℕ} :
    ∀ {w : List DomainCandidate} {i : ℕ}, (scanWin u l r w).1 = some i → i < w.length := by
  intro w
  induction w with
  | nil => intro i h; simp [scanWin] at h
  | cons c rest ih =>
    intro i h
    unfold scanWin at h
    split at h
    · rcases hp : (scanWin u l r rest).1 with _ | j
      · rw [hp] at h; simp at h
      · rw [hp] at h
        simp only [Option.map_some] at h
        cases h
        have := ih hp
        simpa using Nat.succ_lt_succ this
    · split at h
      · simp only [Prod.fst] at h
        cases h
        simp
      · rcases hp : (scanWin u l r rest).1 with _ | j
        · rw [hp] at h; simp at h
        · rw [hp] at h
          simp only [Option.map_some] at h
          cases h
          have := ih hp
          simpa using Nat.succ_lt_succ this

theorem scanWin_snd_lt {u : List String} {l : Option String} {r : ℕ} :
    ∀ {w : List DomainCandidate} {i : ℕ}, (scanWin u l r w).2 = some i → i < w.length := by
  intro w
  induction w with
  | nil => intro i h; simp [scanWin] at h
  | cons c rest ih =>
    intro i h
    unfold scanWin at h
    split at h
    · rcases hp : (scanWin u l r rest).2 with _ | j
      · rw [hp] at h; simp at h
      · rw [hp] at h
        simp only [Option.map_some] at h
        cases h
        have := ih hp
        simpa using Nat.succ_lt_succ this
    · split at h
      · simp at h
      · simp only [Prod.snd] at h
        cases h
        simp

theorem pickIndex_lt {st_used : List String} {st_last : Option String} {st_run : ℕ}
    {q : List DomainCandidate} {i : ℕ}
    (h : pickIndex st_used st_last st_run q = some i) : i < q.length := by
  unfold pickIndex at h
  split at h
  · simp at h
  · rename_i hne
    have hq : 0 < q.length := by
      cases q with
      | nil => simp at hne
      | cons a l => simp
    split at h
    · rename_i j hj
      cases h
      have hj1 : (scanWin st_used st_last st_run (List.take lookahead q)).1 = some i := by
        rw [hj]
      have := scanWin_fst_lt hj1
      exact this.trans_le (by simpa using List.length_take_le lookahead q)
    · rename_i j hj hj2
      cases h
      have hj1 : (scanWin st_used st_last st_run (List.take lookahead q)).2 = some i := by
        rw [hj2]
      have := scanWin_snd_lt hj1
      exact this.trans_le (by simpa using List.length_take_le lookahead q)
    · cases h
      exact hq

theorem pickIndex_isSome {u : List String} {l : Option String} {r : ℕ}
    {q : List DomainCandidate} (h : ¬ q = []) :
    ∃ i, pickIndex u l r q = some i := by
  unfold pickIndex
  rw [if_neg (by simpa [List.isEmpty_iff] using h)]
  rcases hs : scanWin u l r (q.take lookahead) with ⟨p, f⟩
  cases p with
  | some i => exact ⟨i, rfl⟩
  | none =>
    cases f with
    | some i => exact ⟨i, rfl⟩
    | none => exact ⟨0, rfl⟩

theorem pickStep_eq_none {st : RankSt} {q : List DomainCandidate} :
    pickStep st q = none ↔ q = [] := by
  constructor
  · intro h
    by_contra hq
    rcases pickIndex_isSome (u := st.used) (l := st.last) (r := st.run) hq with ⟨i, hi⟩
    have hlt := pickIndex_lt hi
    rcases List.get?_eq_get hlt with hg
    unfold pickStep at h
    simp only [hi] at h
    simp only [hg] at h
    simp at h
  · intro h
    subst h
    rfl

/-- The bookkeeping facts of one successful pick. -/
theorem pickStep_some_spec {st : RankSt} {q : List DomainCandidate}
    {item : DomainCandidate} {q1 : List DomainCandidate} {st1 : RankSt}
    (h : pickStep st q = some (item, q1, st1)) :
    q.Perm (item :: q1) ∧
    st1.out = st.out ++ [item] ∧
    st1.trace = st.trace ++
      [{ item := item, window := q.take lookahead, usedBefore := st.used,
         lastBefore := st.last, runBefore := st.run }] ∧
    st1.last = some (stratOf item) ∧
    maxStrategyRun ≤ st1.run := by
  unfold pickStep at h
  rcases hpi : pickIndex st.used st.last st.run q with _ | i
  · simp only [hpi] at h
    exact absurd h (by simp)
  · simp only [hpi] at h
    rcases hg : q.get? i with _ | it
    · simp only [hg] at h
      exact absurd h (by simp)
    · simp only [hg] at h
      simp only [Option.some.injEq, Prod.mk.injEq] at h
      rcases h with ⟨h1, h2, h3⟩
      subst h1
      subst h2
      subst h3
      by_cases hl : st.last = some (stratOf it)
      · refine ⟨get?_eraseIdx_perm q i _ hg, rfl, rfl, ?_, ?_⟩
        · simp [hl]
        · simp [hl, maxStrategyRun]
      · refine ⟨get?_eraseIdx_perm q i _ hg, rfl, rfl, ?_, ?_⟩
        · simp [hl]
        · simp [hl, maxStrategyRun]

/-- One unlimited sweep: never early-returns, preserves the multiset of
output plus queued items, picks once per non-empty queue (so at least
once when some queue is non-empty), and grows the output by exactly the
number of picks. -/
theorem sweep_none_spec (gs : List (String × List DomainCandidate)) :
    ∀ (st : RankSt) (k : ℕ),
    (sweep none gs st k).2.2.2 = false ∧
    ((sweep none gs st k).2.1.out ++ flattenQ (sweep none gs st k).1).Perm
      (st.out ++ flattenQ gs) ∧
    k ≤ (sweep none gs st k).2.2.1 ∧
    ((∃ g ∈ gs, ¬ g.2 = []) → k < (sweep none gs st k).2.2.1) ∧
    (sweep none gs st k).2.1.out.length
      = st.out.length + ((sweep none gs st k).2.2.1 - k) := by
  induction gs with
  | nil =>
    intro st k
    refine ⟨rfl, List.Perm.refl _, Nat.le_refl k, ?_, by simp [sweep]⟩
    intro h
    rcases h with ⟨g, hg, _⟩
    simp at hg
  | cons g rest ih =>
    intro st k
    rcases g with ⟨sfx, queue⟩
    rcases hp : pickStep st queue with _ | ⟨item, queue1, st1⟩
    · have hq : queue = [] := pickStep_eq_none.mp hp
      obtain ⟨ih1, ih2, ih3, ih4, ih5⟩ := ih st k
      subst hq
      simp only [sweep, hp]
      refine ⟨ih1, ?_, ih3, ?_, ih5⟩
      · simpa [flattenQ] using ih2
      · intro h
        rcases h with ⟨g2, hg2, hne2⟩
        rcases List.mem_cons.mp hg2 with h2 | h2
        · subst h2
          simp at hne2
        · exact ih4 ⟨g2, h2, hne2⟩
    · obtain ⟨hperm, hout, _, _, _⟩ := pickStep_some_spec hp
      obtain ⟨ih1, ih2, ih3, ih4, ih5⟩ := ih st1 (k + 1)
      simp only [sweep, hp, Bool.false_eq_true, if_false]
      refine ⟨ih1, ?_, by omega, fun _ => by omega, ?_⟩
      · refine List.perm_iff_count.mpr (fun a => ?_)
        have h1 := ih2.count_eq a
        have h2 := hperm.count_eq a
        rw [hout] at h1
        simp only [List.count_append, List.count_cons, List.count_singleton,
          List.count_nil, flattenQ] at h1 h2 ⊢
        omega
      · have houtlen : st1.out.length = st.out.length + 1 := by
          rw [hout]
          simp
        simp only [flattenQ] at *
        omega

theorem flattenQ_filter_nonempty (gs : List (String × List DomainCandidate)) :
    flattenQ (gs.filter (fun g => !g.2.isEmpty)) = flattenQ gs := by
  induction gs with
  | nil => rfl
  | cons g rest ih =>
    by_cases hg : g.2.isEmpty
    · have hg2 : g.2 = [] := by
        rcases g with ⟨s, q⟩
        cases q with
        | nil => rfl
        | cons a l => simp at hg
      simp [List.filter_cons, hg, flattenQ, hg2, ih]
    · simp [List.filter_cons, hg, flattenQ, ih]

/-- The unlimited ranking loop drains every queue: its output is a
permutation of the queued candidates appended to the output so far. -/
theorem rankLoop_none_perm (n : ℕ) :
    ∀ (fuel : ℕ) (gs : List (String × List DomainCandidate)) (st : RankSt),
    (∀ g ∈ gs, ¬ g.2 = []) →
    st.out.length + (flattenQ gs).length = n →
    (flattenQ gs).length < fuel →
    ((rankLoop none n fuel gs st).out).Perm (st.out ++ flattenQ gs) := by
  intro fuel
  induction fuel with
  | zero => intro gs st _ _ h3; omega
  | succ fuel ih =>
    intro gs st hne hn hf
    by_cases hgs : gs = []
    · subst hgs
      simp only [rankLoop, flattenQ, List.isEmpty_nil, Bool.not_true, List.append_nil]
      rw [if_neg (by simp)]
    · have hlen : 0 < (flattenQ gs).length := by
        rcases hgg : gs with _ | ⟨g, rest⟩
        · exact absurd hgg hgs
        · have hg := hne g (by rw [hgg]; exact List.mem_cons_self g rest)
          rcases hq : g.2 with _ | ⟨c, q⟩
          · exact absurd hq hg
          · simp [flattenQ, hq]
      have hguard : st.out.length < n ∧ (!(gs.isEmpty)) = true := by
        constructor
        · omega
        · simp [List.isEmpty_iff, hgs]
      obtain ⟨hs1, hs2, hs3, hs4, hs5⟩ := sweep_none_spec gs st 0
      have hpicked : 0 < (sweep none gs st 0).2.2.1 := by
        rcases gs with _ | ⟨g, rest⟩
        · exact absurd rfl hgs
        · exact hs4 ⟨g, List.mem_cons_self g rest, hne g (List.mem_cons_self g rest)⟩
      have hlens := hs2.length_eq
      simp only [List.length_append] at hlens
      simp only [rankLoop]
      rw [if_pos hguard, hs1]
      rw [if_neg (by simp)]
      rw [if_neg (by omega)]
      have hfl : flattenQ ((sweep none gs st 0).1.filter (fun g => !g.2.isEmpty))
          = flattenQ (sweep none gs st 0).1 := flattenQ_filter_nonempty _
      have hrec := ih ((sweep none gs st 0).1.filter (fun g => !g.2.isEmpty))
        (sweep none gs st 0).2.1
        (by
          intro g hg
          have := List.mem_filter.mp hg
          simpa [List.isEmpty_iff] using this.2)
        (by rw [hfl]; omega)
        (by rw [hfl]; omega)
      refine hrec.trans ?_
      rw [hfl]
      exact hs2

theorem flattenQ_perm {gs gs' : List (String × List DomainCandidate)}
    (h : gs.Perm gs') : (flattenQ gs).Perm (flattenQ gs') := by
  induction h with
  | nil => exact List.Perm.refl _
  | cons x _ ih => exact ih.append_left x.2
  | swap x y l =>
    refine List.perm_iff_count.mpr (fun a => ?_)
    simp only [flattenQ, List.count_append]
    omega
  | trans _ _ ih1 ih2 => exact ih1.trans ih2

theorem flattenQ_addToGroups (gs : List (String × List DomainCandidate))
    (c : DomainCandidate) :
    (flattenQ (addToGroups gs c)).Perm (flattenQ gs ++ [c]) := by
  induction gs with
  | nil =>
    simp [addToGroups, flattenQ]
  | cons g rest ih =>
    rcases g with ⟨s, q⟩
    by_cases hs : s = c.suffix
    · simp only [addToGroups, if_pos hs, flattenQ]
      refine List.perm_iff_count.mpr (fun a => ?_)
      simp only [List.count_append]
      omega
    · simp only [addToGroups, if_neg hs, flattenQ]
      refine List.perm_iff_count.mpr (fun a => ?_)
      have := (ih.count_eq a)
      simp only [List.count_append] at this ⊢
      omega

theorem flattenQ_foldl_addToGroups (l : List DomainCandidate) :
    ∀ gs, (flattenQ (l.foldl addToGroups gs)).Perm (flattenQ gs ++ l) := by
  induction l with
  | nil => intro gs; simp
  | cons c cs ih =>
    intro gs
    have h1 := ih (addToGroups gs c)
    have h2 : (flattenQ (addToGroups gs c) ++ cs).Perm ((flattenQ gs ++ [c]) ++ cs) :=
      (flattenQ_addToGroups gs c).append_right cs
    refine (h1.trans h2).trans ?_
    simp [List.append_assoc]

theorem flattenQ_buildGroups (l : List DomainCandidate) :
    (flattenQ (buildGroups l)).Perm l := by
  have := flattenQ_foldl_addToGroups l []
  simpa [buildGroups, flattenQ] using this

theorem addToGroups_nonempty {gs : List (String × List DomainCandidate)}
    {c : DomainCandidate} (h : ∀ g ∈ gs, ¬ g.2 = []) :
    ∀ g ∈ addToGroups gs c, ¬ g.2 = [] := by
  induction gs with
  | nil =>
    intro g hg
    simp only [addToGroups, List.mem_singleton] at hg
    subst hg
    simp
  | cons g0 rest ih =>
    rcases g0 with ⟨s, q⟩
    intro g hg
    by_cases hs : s = c.suffix
    · simp only [addToGroups, if_pos hs] at hg
      rcases List.mem_cons.mp hg with h2 | h2
      · subst h2
        simp
      · exact h g (List.mem_cons_of_mem _ h2)
    · simp only [addToGroups, if_neg hs] at hg
      rcases List.mem_cons.mp hg with h2 | h2
      · subst h2
        exact h (s, q) (List.mem_cons_self _ _)
      · exact ih (fun g' hg' => h g' (List.mem_cons_of_mem _ hg')) g h2

theorem buildGroups_nonempty (l : List DomainCandidate) :
    ∀ g ∈ buildGroups l, ¬ g.2 = [] := by
  have aux : ∀ (l' : List DomainCandidate) (gs : List (String × List DomainCandidate)),
      (∀ g ∈ gs, ¬ g.2 = []) → ∀ g ∈ l'.foldl addToGroups gs, ¬ g.2 = [] := by
    intro l'
    induction l' with
    | nil => intro gs h; exact h
    | cons c cs ih =>
      intro gs h
      exact ih (addToGroups gs c) (addToGroups_nonempty h)
  exact aux l [] (by intro g hg; simp at hg)

/-- `rankDomains` without a limit drains every group queue: the output is
a permutation of the input (shared helper for several results). -/
theorem rankDomains_none_perm_helper (cands : List DomainCandidate) :
    (rankDomains cands none).Perm cands := by
  unfold rankDomains rankDomainsT
  by_cases hc : cands.isEmpty = true
  · have h0 : cands = [] := List.isEmpty_iff.mp hc
    subst h0
    simp
  · rw [if_neg hc]
    have hperm1 : (flattenQ (sortStable groupGe (buildGroups (sortStable totalGe cands)))).Perm
        (sortStable totalGe cands) :=
      (flattenQ_perm (sortStable_perm groupGe (buildGroups (sortStable totalGe cands)))).trans
        (flattenQ_buildGroups (sortStable totalGe cands))
    have hloop := rankLoop_none_perm (sortStable totalGe cands).length
      ((sortStable totalGe cands).length + 1)
      (sortStable groupGe (buildGroups (sortStable totalGe cands)))
      { out := [], used := [], last := none, run := 0, trace := [] }
      (by
        intro g hg
        exact buildGroups_nonempty (sortStable totalGe cands) g (mem_sortStable.mp hg))
      (by
        have := hperm1.length_eq
        simpa using this)
      (by
        have := hperm1.length_eq
        omega)
    refine hloop.trans ?_
    simp only [List.nil_append]
    exact hperm1.trans (sortStable_perm totalGe cands)

/-- C9: called without a limit, `rankDomains` returns a permutation of
its input candidate list — nothing is dropped, duplicated or mutated. -/
theorem rankDomains_no_limit_is_permutation (cands : List DomainCandidate) :
    (rankDomains cands none).Perm cands :=
  rankDomains_none_perm_helper cands

/-- C3 (amended): the ranking stage emits each domain exactly as often as
the scored candidate list contains it — scoring and ranking neither add
nor remove duplicate domains, so a domain duplicated by the merger stays
duplicated in the final ranked output. -/
theorem rank_preserves_domain_multiplicity (dict : String → Bool)
    (raw : List RawCandidate) (orderedTlds : List String)
    (location : Option String) (tldWeights : List (String × JsNum)) (s : String) :
    ((rankDomains (scoreCandidates dict raw orderedTlds location tldWeights) none).countP
        (fun c => c.domain == s))
      = ((scoreCandidates dict raw orderedTlds location tldWeights).countP
        (fun c => c.domain == s)) :=
  (rankDomains_none_perm_helper
    (scoreCandidates dict raw orderedTlds location tldWeights)).countP_eq _

theorem scanWin_fst_spec {u : List String} {l : Option String} {r : ℕ} :
    ∀ {w : List DomainCandidate} {i : ℕ}, (scanWin u l r w).1 = some i →
    ∃ c, w.get? i = some c ∧ u.contains (getDomainLabel c) = false ∧
      ¬ (l = some (stratOf c) ∧ maxStrategyRun ≤ r) := by
  intro w
  induction w with
  | nil => intro i h; simp [scanWin] at h
  | cons c rest ih =>
    intro i h
    unfold scanWin at h
    split at h
    · rcases hp : (scanWin u l r rest).1 with _ | j
      · rw [hp] at h; simp at h
      · rw [hp] at h
        simp only [Option.map_some] at h
        cases h
        rcases ih hp with ⟨c', hc1, hc2, hc3⟩
        exact ⟨c', by simpa using hc1, hc2, hc3⟩
    · split at h
      · simp only [Prod.fst, Option.some.injEq] at h
        subst h
        rename_i hused hbreak
        refine ⟨c, rfl, by simpa using hused, ?_⟩
        cases hdec : decide (l = some (stratOf c) ∧ maxStrategyRun ≤ r) with
        | false => exact of_decide_eq_false hdec
        | true =>
          rw [hdec] at hbreak
          simp at hbreak
      · rcases hp : (scanWin u l r rest).1 with _ | j
        · rw [hp] at h; simp at h
        · rw [hp] at h
          simp only [Option.map_some] at h
          cases h
          rcases ih hp with ⟨c', hc1, hc2, hc3⟩
          exact ⟨c', by simpa using hc1, hc2, hc3⟩

theorem scanWin_fst_total {u : List String} {l : Option String} {r : ℕ} :
    ∀ {w : List DomainCandidate},
    (∃ c ∈ w, u.contains (getDomainLabel c) = false ∧
      ¬ (l = some (stratOf c) ∧ maxStrategyRun ≤ r)) →
    (scanWin u l r w).1.isSome = true := by
  intro w
  induction w with
  | nil =>
    intro h
    rcases h with ⟨c, hc, _⟩
    simp at hc
  | cons c rest ih =>
    intro h
    unfold scanWin
    split
    · rename_i hused
      have hrest : ∃ c' ∈ rest, u.contains (getDomainLabel c') = false ∧
          ¬ (l = some (stratOf c') ∧ maxStrategyRun ≤ r) := by
        rcases h with ⟨c', hc', hp1, hp2⟩
        rcases List.mem_cons.mp hc' with h2 | h2
        · subst h2
          rw [hused] at hp1
          simp at hp1
        · exact ⟨c', h2, hp1, hp2⟩
      have := ih hrest
      rcases hp : (scanWin u l r rest).1 with _ | j
      · rw [hp] at this; simp at this
      · simp [hp]
    · split
      · simp
      · rename_i hused hbreak
        have hcfail : l = some (stratOf c) ∧ maxStrategyRun ≤ r := by
          by_contra hcon
          have hd : decide (l = some (stratOf c) ∧ maxStrategyRun ≤ r) = false :=
            decide_eq_false hcon
          rw [hd] at hbreak
          simp at hbreak
        have hrest : ∃ c' ∈ rest, u.contains (getDomainLabel c') = false ∧
            ¬ (l = some (stratOf c') ∧ maxStrategyRun ≤ r) := by
          rcases h with ⟨c', hc', hp1, hp2⟩
          rcases List.mem_cons.mp hc' with h2 | h2
          · subst h2
            exact absurd hcfail hp2
          · exact ⟨c', h2, hp1, hp2⟩
        have := ih hrest
        rcases hp : (scanWin u l r rest).1 with _ | j
        · rw [hp] at this; simp at this
        · simp [hp]

/-- The record created by a pick satisfies its specification: an
unused-label alternative of a different strategy in the window forces the
picked strategy to differ from the running one. -/
theorem pickStep_pickOk {st : RankSt} {q : List DomainCandidate}
    {item : DomainCandidate} {q1 : List DomainCandidate} {st1 : RankSt}
    (h : pickStep st q = some (item, q1, st1)) :
    pickOk { item := item, window := q.take lookahead, usedBefore := st.used,
             lastBefore := st.last, runBefore := st.run } := by
  intro s hl0 hr0 halt0
  have hl : st.last = some s := hl0
  have hr : maxStrategyRun ≤ st.run := hr0
  have halt : ∃ c ∈ q.take lookahead,
      st.used.contains (getDomainLabel c) = false ∧ ¬ stratOf c = s := halt0
  have halt' : ∃ c ∈ q.take lookahead,
      st.used.contains (getDomainLabel c) = false ∧
      ¬ (st.last = some (stratOf c) ∧ maxStrategyRun ≤ st.run) := by
    rcases halt with ⟨c, hc, h1, h2⟩
    refine ⟨c, hc, h1, fun hcon => h2 ?_⟩
    exact (Option.some.inj (hl.symm.trans hcon.1)).symm
  have hsome := scanWin_fst_total halt'
  unfold pickStep at h
  rcases hpi : pickIndex st.used st.last st.run q with _ | i
  · simp only [hpi] at h
    exact absurd h (by simp)
  · simp only [hpi] at h
    rcases hg : q.get? i with _ | it
    · simp only [hg] at h
      exact absurd h (by simp)
    · simp only [hg] at h
      simp only [Option.some.injEq, Prod.mk.injEq] at h
      rcases h with ⟨h1, _, _⟩
      subst h1
      have hqne : ¬ q.isEmpty = true := by
        intro hq
        have h0 : q = [] := List.isEmpty_iff.mp hq
        subst h0
        simp at hg
      unfold pickIndex at hpi
      rw [if_neg hqne] at hpi
      rcases hscan : scanWin st.used st.last st.run (q.take lookahead) with ⟨p, f⟩
      rw [hscan] at hpi
      have hpsome : p.isSome = true := by
        rw [hscan] at hsome
        exact hsome
      rcases p with _ | j
      · simp at hpsome
      · simp only [Option.some.injEq] at hpi
        have hji : j = i := by
          simpa using hpi
        subst hji
        have hfst : (scanWin st.used st.last st.run (q.take lookahead)).1 = some j := by
          rw [hscan]
        rcases scanWin_fst_spec hfst with ⟨c', hc1, _, hc3⟩
        have hjlt : j < (q.take lookahead).length := scanWin_fst_lt hfst
        have hjlook : j < lookahead := by
          rw [List.length_take] at hjlt
          omega
        have hgw : q.get? j = some c' := by
          rw [← List.get?_take hjlook]
          exact hc1
        have hit : it = c' := by
          rw [hg] at hgw
          exact Option.some.inj hgw
        subst hit
        intro hstrat0
        have hstrat : stratOf it = s := hstrat0
        exact hc3 ⟨by rw [hl, hstrat], hr⟩

theorem getD_append_left {l1 l2 : List PickRecord} {i : ℕ} (h : i < l1.length)
    (d : PickRecord) : (l1 ++ l2).getD i d = l1.getD i d := by
  simp only [List.getD, List.get?_append h]

theorem getD_concat_length {l : List PickRecord} (r d : PickRecord) :
    (l ++ [r]).getD l.length d = r := by
  simp only [List.getD, List.get?_append_right (Nat.le_refl l.length)]
  simp

theorem getLast_getD_eq {l : List PickRecord} (h : ¬ l = []) (d : PickRecord) :
    l.getLast?.getD d = l.getD (l.length - 1) d := by
  rw [List.getLast?_eq_getElem? l]
  simp [List.getD, List.get?_eq_getElem?]

/-- One pick preserves the trace invariant. -/
theorem pickStep_traceInv {st : RankSt} {q : List DomainCandidate}
    {item : DomainCandidate} {q1 : List DomainCandidate} {st1 : RankSt}
    (h : pickStep st q = some (item, q1, st1)) (hinv : traceInv st) :
    traceInv st1 := by
  obtain ⟨_, hout, htrace, hlast, hrun⟩ := pickStep_some_spec h
  obtain ⟨i1, i2, i3, i4⟩ := hinv
  have hok := pickStep_pickOk h
  refine ⟨?_, ?_, ?_, ?_⟩
  · rw [htrace, hout, List.map_append, i1]
    rfl
  · intro _
    rw [htrace]
    rw [List.getLast?_concat]
    exact ⟨hlast, hrun⟩
  · intro k hk
    rw [htrace] at hk ⊢
    simp only [List.length_append, List.length_singleton] at hk
    by_cases hklt : k + 1 < st.trace.length
    · rw [getD_append_left hklt, getD_append_left (by omega)]
      exact i3 k hklt
    · have hkeq : k + 1 = st.trace.length := by omega
      have htne : ¬ st.trace = [] := by
        intro h0
        rw [h0] at hkeq
        simp at hkeq
      obtain ⟨il1, il2⟩ := i2 htne
      have h1 : (st.trace ++
          [({ item := item, window := q.take lookahead, usedBefore := st.used,
              lastBefore := st.last, runBefore := st.run } : PickRecord)]).getD (k + 1) default
          = ({ item := item, window := q.take lookahead, usedBefore := st.used,
               lastBefore := st.last, runBefore := st.run } : PickRecord) := by
        rw [hkeq]
        exact getD_concat_length _ _
      rw [h1, getD_append_left (by omega)]
      refine ⟨?_, il2⟩
      show st.last = _
      rw [il1, getLast_getD_eq htne]
      have hk2 : st.trace.length - 1 = k := by omega
      rw [hk2]
  · intro rcd hrcd
    rw [htrace] at hrcd
    rcases List.mem_append.mp hrcd with h2 | h2
    · exact i4 rcd h2
    · have h3 := List.mem_singleton.mp h2
      subst h3
      exact hok

/-- A sweep preserves the trace invariant. -/
theorem sweep_traceInv (limit : Option ℕ)
    (gs : List (String × List DomainCandidate)) :
    ∀ (st : RankSt) (k : ℕ), traceInv st → traceInv (sweep limit gs st k).2.1 := by
  induction gs with
  | nil => intro st k h; exact h
  | cons g rest ih =>
    intro st k h
    rcases g with ⟨sfx, queue⟩
    rcases hp : pickStep st queue with _ | ⟨item, queue1, st1⟩
    · simp only [sweep, hp]
      exact ih st k h
    · have h1 := pickStep_traceInv hp h
      simp only [sweep, hp]
      split
      · exact h1
      · exact ih st1 (k + 1) h1

/-- The ranking loop preserves the trace invariant. -/
theorem rankLoop_traceInv (limit : Option ℕ) (n : ℕ) :
    ∀ (fuel : ℕ) (gs : List (String × List DomainCandidate)) (st : RankSt),
    traceInv st → traceInv (rankLoop limit n fuel gs st) := by
  intro fuel
  induction fuel with
  | zero => intro gs st h; exact h
  | succ fuel ih =>
    intro gs st h
    simp only [rankLoop]
    split
    · have hs := sweep_traceInv limit gs st 0 h
      split
      · exact hs
      · split
        · exact hs
        · exact ih _ _ hs
    · exact h

/-- The final state of `rankDomains` satisfies the trace invariant. -/
theorem rankDomainsT_traceInv (cands : List DomainCandidate) (limit : Option ℕ) :
    traceInv (rankDomainsT cands limit) := by
  have hinit : traceInv { out := [], used := [], last := none, run := 0, trace := [] } := by
    refine ⟨rfl, ?_, ?_, ?_⟩
    · intro h
      exact absurd rfl h
    · intro k hk
      simp at hk
    · intro rcd hrcd
      simp at hrcd
  unfold rankDomainsT
  split
  · exact hinit
  · exact rankLoop_traceInv limit _ _ _ _ hinit

/-- C6: in the output of `rankDomains`, whenever two consecutive emitted
items share a strategy, the lookahead window of the group from which the
second was picked contained, at that moment, no unused-label item of a
different strategy (with `maxStrategyRun = 1`, the same strategy is never
emitted twice in a row when such an alternative exists); the emitted list
is exactly the trace of picks. -/
theorem rank_no_adjacent_same_strategy (cands : List DomainCandidate)
    (limit : Option ℕ) (k : ℕ)
    (hk : k + 1 < (rankTrace cands limit).length)
    (hsame : stratOf (((rankTrace cands limit).getD k default).item)
      = stratOf (((rankTrace cands limit).getD (k + 1) default).item)) :
    rankDomains cands limit = (rankTrace cands limit).map (fun r => r.item) ∧
    ∀ c ∈ ((rankTrace cands limit).getD (k + 1) default).window,
      ¬ (((rankTrace cands limit).getD (k + 1) default).usedBefore.contains
          (getDomainLabel c) = false ∧
        ¬ stratOf c = stratOf (((rankTrace cands limit).getD k default).item)) := by
  obtain ⟨i1, _, i3, i4⟩ := rankDomainsT_traceInv cands limit
  refine ⟨i1.symm, ?_⟩
  intro c hc hcontra
  rcases hcontra with ⟨hu, hs⟩
  have hmem : (rankTrace cands limit).getD (k + 1) default ∈ rankTrace cands limit := by
    have hg : (rankTrace cands limit)[k + 1]? = some ((rankTrace cands limit)[k + 1]) :=
      List.getElem?_eq_getElem hk
    rw [List.getD, List.get?_eq_getElem?, hg]
    exact List.getElem_mem hk
  obtain ⟨hlast, hrun⟩ := i3 k hk
  have hok := i4 _ hmem
  have hne := hok (stratOf (((rankTrace cands limit).getD k default).item))
    hlast hrun ⟨c, hc, hu, hs⟩
  exact hne hsame.symm

/-- C6 witness: two consecutive same-strategy picks occur, and indeed the
window at the second pick held no unused different-strategy item. -/
theorem rank_no_adjacent_same_strategy_witness :
    (0 + 1 < (rankTrace sameStratCands none).length ∧
      stratOf (((rankTrace sameStratCands none).getD 0 default).item)
        = stratOf (((rankTrace sameStratCands none).getD (0 + 1) default).item)) ∧
    (rankDomains sameStratCands none
        = (rankTrace sameStratCands none).map (fun r => r.item) ∧
      ∀ c ∈ ((rankTrace sameStratCands none).getD (0 + 1) default).window,
        ¬ (((rankTrace sameStratCands none).getD (0 + 1) default).usedBefore.contains
            (getDomainLabel c) = false ∧
          ¬ stratOf c = stratOf (((rankTrace sameStratCands none).getD 0 default).item))) :=
  ⟨⟨by decide, by decide⟩,
    rank_no_adjacent_same_strategy sameStratCands none 0 (by decide) (by decide)⟩
